import Mathlib

/-!
Verification of the pixel-compression engine of the `pmd_wan` repository
(`src/imagecompression.rs` and the helper `get_bit_u16` of `lib.rs`).

The Rust code is shallowly embedded: pixels are natural numbers (the `u8`
values of the source), the seekable byte sink is modelled by its starting
position `pos0` together with the list of bytes appended so far (the current
stream position is `pos0 + written.length`), and a run of `compress` either
returns the assembly table and the written bytes, crashes (Rust panic:
out-of-bounds indexing, arithmetic overflow in a debug build, failed
`debug_assert!`, `unwrap` of `None`, or `%` by zero), or runs out of fuel
(the `CompressionMethodOptimised` scan loop is modelled with explicit fuel
because it does not terminate for every parameter choice).

Assembly entries carry, next to the four fields of the Rust
`ImageAssemblyEntry` struct, a ghost `isFiller` flag recording which push
site produced the entry (a transparent filler push or a literal push); the
Rust struct itself has no such field, which is exactly what claim C3 is
about.
-/

set_option linter.unusedSectionVars false
set_option linter.unusedVariables false
set_option linter.unnecessarySeqFocus false
set_option maxRecDepth 100000

namespace PmdWan

/-- Fields of the Rust `ImageAssemblyEntry` struct exactly as populated by
`CompressionMethod::compress` (`pixel_src`, `pixel_amount`, `byte_amount`,
`_z_index`). -/
structure ImageAssemblyEntry where
  pixel_src : Nat
  pixel_amount : Nat
  byte_amount : Nat
  z_index : Nat
deriving DecidableEq

/-- An assembly entry together with a ghost provenance flag: `isFiller` is
true when the entry was pushed by a transparent (never written) run and false
when it was pushed as a literal run. The Rust struct has no such flag; this
instrumentation only records which source push site produced the entry. -/
structure TaggedEntry where
  entry : ImageAssemblyEntry
  isFiller : Bool
deriving DecidableEq

/-- The fields of the Rust `Image` used by `compress`: the dimension of the
backing image and its z-index. -/
structure Image where
  width : Nat
  height : Nat
  z_index : Nat
deriving DecidableEq

/-- The Rust `CompressionMethod` enum. -/
inductive CompressionMethod where
  | CompressionMethodOriginal
  | CompressionMethodOptimised (multiple_of_value min_transparent_to_compress : Nat)
  | NoCompression
deriving DecidableEq

/-- Outcome of a `compress` call: the returned assembly table together with
the bytes appended to the sink, a Rust panic, or fuel exhaustion of the
modelled `Optimised` scan loop. -/
inductive CResult where
  | ok (table : List TaggedEntry) (written : List Nat)
  | crashed
  | fuelOut
deriving DecidableEq

/-- One nibble-packed byte `(p0 << 4) + p1` as computed on Rust `u8` values:
the shift truncates modulo 256 and the addition panics (debug build) when it
overflows `u8`. -/
def packByte (p0 p1 : Nat) : Option Nat :=
  if p0 % 256 * 16 % 256 + p1 ≤ 255 then some (p0 % 256 * 16 % 256 + p1) else none

/-- Nibble-packing of consecutive pixel pairs, as done by the byte loops of
the `Original` branch (`byte_id in 0..32`) and the `chunks_exact(2)` loop of
the `NoCompression` branch; a trailing lone element is ignored exactly as
`chunks_exact` ignores it. -/
def packPairs : List Nat → Option (List Nat)
  | p0 :: p1 :: rest =>
    match packByte p0 p1, packPairs rest with
    | some b, some bs => some (b :: bs)
    | _, _ => none
  | _ => some []

/-- Modelled from the spec: high-nibble-first unpacking of bytes into pixel
pairs, the literal-entry replay step of the Run Disassembler (which is not
part of the provided sources; claims C1's replay description is used). -/
def unpackBytes : List Nat → List Nat
  | [] => []
  | b :: rest => b / 16 :: b % 16 :: unpackBytes rest

/-- The Rust `ActualEntry` enum local to the `Original` branch:
`Null(lenght, z_index)` and `Some(initial_offset, lenght, z_index)`. -/
inductive ActualEntry where
  | Null (lenght z_index : Nat)
  | Some (initial_offset lenght z_index : Nat)
deriving DecidableEq

/-- The Rust `ActualEntry::new`. -/
def ActualEntry.new (is_all_black : Bool) (start_offset z_index : Nat) : ActualEntry :=
  if is_all_black then .Null 64 z_index else .Some start_offset 64 z_index

/-- The Rust `ActualEntry::to_assembly`, with the ghost filler flag recording
whether the entry came from the `Null` constructor. -/
def ActualEntry.to_assembly : ActualEntry → TaggedEntry
  | .Null lenght z_index => ⟨⟨0, lenght, lenght / 2, z_index⟩, true⟩
  | .Some initial_offset lenght z_index =>
    ⟨⟨initial_offset, lenght, lenght / 2, z_index⟩, false⟩

/-- The Rust `ActualEntry::advance`. -/
def ActualEntry.advance : ActualEntry → Nat → ActualEntry
  | .Null l z, lenght => .Null (l + lenght) z
  | .Some offset l z, lenght => .Some offset (l + lenght) z

/-- Reading `n` consecutive pixels starting at index `i` (the
`pixel_list[loop_nb * 64 + l]` loop of the `Original` branch); any
out-of-bounds index is a Rust panic, i.e. `none`. -/
def readArea (pxs : List Nat) (i n : Nat) : Option (List Nat) :=
  if i + n ≤ pxs.length then some ((pxs.drop i).take n) else none

/-- State threaded through the `Original` tile loop: the open `actual_entry`,
the `assembly_table` built so far and the bytes written so far. -/
structure OrigSt where
  actual : Option ActualEntry
  table : List TaggedEntry
  written : List Nat
deriving DecidableEq

/-- One iteration of the `Original` tile loop (loop body for a given
`loop_nb`): read the 64-pixel area, write its 32 packed bytes unless the area
is all black, then either merge into the open entry or close it and open a
new one. -/
def origTileStep (pxs : List Nat) (z pos0 : Nat) (st : OrigSt) (loop_nb : Nat) :
    Option OrigSt :=
  match readArea pxs (loop_nb * 64) 64 with
  | none => none
  | some this_area =>
    let is_all_black := this_area.all (· == 0)
    let pos_before_area := pos0 + st.written.length
    match (if is_all_black then some [] else packPairs this_area) with
    | none => none
    | some wrote =>
      let written1 := st.written ++ wrote
      let need_to_create_new_entry :=
        match st.actual with
        | none => true
        | some (.Null _ _) => !is_all_black
        | some (.Some _ _ _) => is_all_black
      if need_to_create_new_entry then
        some ⟨some (ActualEntry.new is_all_black pos_before_area z),
              st.table ++ (match st.actual with
                           | some entry => [entry.to_assembly]
                           | none => []),
              written1⟩
      else
        match st.actual with
        | some e => some ⟨some (e.advance 64), st.table, written1⟩
        | none => none

/-- The first `t` iterations of the `Original` tile loop from the initial
state (`actual_entry = None`, empty table, nothing written). -/
def origRunN (pxs : List Nat) (z pos0 : Nat) : Nat → Option OrigSt
  | 0 => some ⟨none, [], []⟩
  | t + 1 =>
    match origRunN pxs z pos0 t with
    | some st => origTileStep pxs z pos0 st t
    | none => none

/-- State threaded through the `Optimised` scan loop. -/
structure OptState where
  pixel_id : Nat
  number_of_byte_to_include : Nat
  byte_include_start : Nat
  table : List TaggedEntry
  written : List Nat
deriving DecidableEq

/-- Outcome of one `Optimised` loop iteration: continue with a new state,
leave the loop (the `break`), or panic. -/
inductive OptStepRes where
  | cont (s : OptState)
  | finished (s : OptState)
  | crashed
deriving DecidableEq

/-- The check that the `min_transparent_to_compress` pixels starting at `i`
are all transparent (the inner `for l in 0..` loop setting
`encontered_non_transparent`). -/
def allTransp (pxs : List Nat) (i n : Nat) : Bool :=
  (List.range n).all (fun l => pxs.getD (i + l) 1 == 0)

/-- Length of the run of transparent pixels at the head of a list (the
greedy `transparent_tile_nb` counting loop). -/
def countZeros : List Nat → Nat
  | [] => 0
  | p :: rest => if p = 0 then countZeros rest + 1 else 0

/-- One iteration of the `Optimised` scan loop, exactly mirroring the Rust
loop body: the `debug_assert!(pixel_id % 2 == 0)`, the `%` by
`multiple_of_value` (a panic when it is zero), the transparent-run trigger,
the flush of the open literal run, the greedy transparent count with its
back-off to the previous multiple of `multiple_of_value`, the `break` guard,
and the literal two-pixel write with its `debug_assert!`s. -/
def optStep (mult minT : Nat) (pxs : List Nat) (pos0 z : Nat) (s : OptState) :
    OptStepRes :=
  if s.pixel_id % 2 ≠ 0 then .crashed
  else if mult = 0 then .crashed
  else if s.pixel_id % mult = 0 ∧ s.pixel_id + minT < pxs.length ∧
          allTransp pxs s.pixel_id minT then
    let s1 : OptState :=
      if 0 < s.number_of_byte_to_include then
        ⟨s.pixel_id, 0, pos0 + s.written.length,
         s.table ++ [⟨⟨s.byte_include_start, s.number_of_byte_to_include * 2,
                       s.number_of_byte_to_include, z⟩, false⟩],
         s.written⟩
      else s
    let run := countZeros (pxs.drop s1.pixel_id)
    let rem := (s1.pixel_id + run) % mult
    .cont ⟨s1.pixel_id + run - rem, s1.number_of_byte_to_include,
           s1.byte_include_start,
           s1.table ++ [⟨⟨0, run - rem, (run - rem) / 2, z⟩, true⟩],
           s1.written⟩
  else if s.pixel_id ≥ pxs.length then .finished s
  else
    match pxs[s.pixel_id]?, pxs[s.pixel_id + 1]? with
    | some p0, some p1 =>
      if p0 < 16 ∧ p1 < 16 then
        .cont ⟨s.pixel_id + 2, s.number_of_byte_to_include + 1,
               s.byte_include_start, s.table, s.written ++ [p0 * 16 + p1]⟩
      else .crashed
    | _, _ => .crashed

/-- The trailing flush after the `Optimised` loop exits: push the open
literal run if it is non-empty, and return the table and written bytes. -/
def optFinish (z : Nat) (s : OptState) : CResult :=
  if 0 < s.number_of_byte_to_include then
    .ok (s.table ++ [⟨⟨s.byte_include_start, s.number_of_byte_to_include * 2,
                       s.number_of_byte_to_include, z⟩, false⟩])
        s.written
  else .ok s.table s.written

/-- The `Optimised` scan loop, fuelled. -/
def optLoop (mult minT : Nat) (pxs : List Nat) (pos0 z : Nat) :
    Nat → OptState → CResult
  | 0, _ => .fuelOut
  | fuel + 1, s =>
    match optStep mult minT pxs pos0 z s with
    | .crashed => .crashed
    | .finished s1 => optFinish z s1
    | .cont s1 => optLoop mult minT pxs pos0 z fuel s1

/-- The Rust `CompressionMethod::compress`, called with the sink currently at
position `pos0`; `fuel` bounds the number of `Optimised` loop iterations and
is ignored by the other two strategies (whose loops are structurally
bounded). -/
def compress (m : CompressionMethod) (img : Image) (pxs : List Nat)
    (pos0 fuel : Nat) : CResult :=
  match m with
  | .CompressionMethodOriginal =>
    match origRunN pxs img.z_index pos0 (img.width / 8 * img.height / 8) with
    | some st =>
      match st.actual with
      | some entry => .ok (st.table ++ [entry.to_assembly]) st.written
      | none => .crashed
    | none => .crashed
  | .CompressionMethodOptimised mult minT =>
    optLoop mult minT pxs pos0 img.z_index fuel ⟨0, 0, pos0, [], []⟩
  | .NoCompression =>
    match packPairs pxs with
    | some bs =>
      .ok [⟨⟨pos0, bs.length * 2, bs.length, img.z_index⟩, false⟩] bs
    | none => .crashed

/-- Modelled from the spec: replay of a single assembly entry as described by
the Run Disassembler contract and claim C1 — a filler entry contributes
`pixel_amount` transparent pixels without touching the sink, a literal entry
reads `byte_amount` bytes at `pixel_src` from the sink (whose bytes start at
position `pos0`) and unpacks them high-nibble-first; an out-of-range read
fails. -/
def replayEntry (pos0 : Nat) (ws : List Nat) (e : TaggedEntry) :
    Option (List Nat) :=
  if e.isFiller then some (List.replicate e.entry.pixel_amount 0)
  else if pos0 ≤ e.entry.pixel_src ∧
          e.entry.pixel_src - pos0 + e.entry.byte_amount ≤ ws.length then
    some (unpackBytes ((ws.drop (e.entry.pixel_src - pos0)).take e.entry.byte_amount))
  else none

/-- Modelled from the spec: replay of a whole assembly table in order. -/
def replayTable (pos0 : Nat) (ws : List Nat) : List TaggedEntry → Option (List Nat)
  | [] => some []
  | e :: rest =>
    match replayEntry pos0 ws e, replayTable pos0 ws rest with
    | some a, some b => some (a ++ b)
    | _, _ => none

/-- A `compress` call succeeds when some fuel makes it return a table. -/
def succeeds (m : CompressionMethod) (img : Image) (pxs : List Nat)
    (pos0 : Nat) : Prop :=
  ∃ fuel table ws, compress m img pxs pos0 fuel = .ok table ws

/-- Every pixel value is a legal 4-bit color index. -/
def pixelOk (pxs : List Nat) : Prop := ∀ p ∈ pxs, p < 16

/-- Conditions under which each strategy compresses faithfully: an even
buffer for `NoCompression`; a non-empty buffer matching the image's 8-aligned
dimensions for `Original`; an even buffer, an even positive
`multiple_of_value` and `min_transparent_to_compress` at least
`multiple_of_value` for `Optimised`. -/
def methodOk : CompressionMethod → Image → List Nat → Prop
  | .CompressionMethodOriginal, img, pxs =>
    pxs.length = img.width * img.height ∧ 8 ∣ img.width ∧ 8 ∣ img.height ∧
      0 < pxs.length
  | .CompressionMethodOptimised mult minT, _, pxs =>
    2 ∣ pxs.length ∧ 2 ∣ mult ∧ 0 < mult ∧ mult ≤ minT
  | .NoCompression, _, pxs => 2 ∣ pxs.length

/-- The Rust `get_bit_u16` of `lib.rs`: `u16` arithmetic is modelled with a
final reduction modulo `2 ^ 16` on the left-shift. -/
def get_bit_u16 (byte id : Nat) : Option Bool :=
  if id < 16 then some (decide (1 ≤ byte >>> (15 - id) <<< 15 % 65536)) else none

/-- The transparent-run trigger of the `Optimised` scan: the index is aligned
to `multiple_of_value`, the next `min_transparent_to_compress` pixels exist
beyond the current one strictly inside the buffer, and they are all
transparent. -/
def trigCond (mult minT : Nat) (pxs : List Nat) (s : OptState) : Prop :=
  s.pixel_id % mult = 0 ∧ s.pixel_id + minT < pxs.length ∧
    allTransp pxs s.pixel_id minT

instance (mult minT : Nat) (pxs : List Nat) (s : OptState) :
    Decidable (trigCond mult minT pxs s) := by
  unfold trigCond
  infer_instance

/-- Loop invariant of the `Optimised` scan: the index is even and in range,
the open literal run covers the `number_of_byte_to_include` last written
bytes and starts at sink position `byte_include_start`, replaying the table
built so far reproduces the input prefix up to the start of the open literal
run, and the open run bytes unpack to the rest of the consumed prefix. -/
def OInv (pxs : List Nat) (pos0 : Nat) (s : OptState) : Prop :=
  2 ∣ s.pixel_id ∧
  s.pixel_id ≤ pxs.length ∧
  2 * s.number_of_byte_to_include ≤ s.pixel_id ∧
  s.number_of_byte_to_include ≤ s.written.length ∧
  s.byte_include_start = pos0 + (s.written.length - s.number_of_byte_to_include) ∧
  replayTable pos0 s.written s.table =
    some (pxs.take (s.pixel_id - 2 * s.number_of_byte_to_include)) ∧
  unpackBytes (s.written.drop (s.written.length - s.number_of_byte_to_include)) =
    (pxs.take s.pixel_id).drop (s.pixel_id - 2 * s.number_of_byte_to_include)

/-- Shape facts holding of every entry the `Optimised` strategy pushes: the
byte count is half the pixel count, and a filler entry has `pixel_src` zero
and a pixel count divisible by `multiple_of_value`. -/
def entryInv (mult : Nat) (e : TaggedEntry) : Prop :=
  e.entry.byte_amount = e.entry.pixel_amount / 2 ∧
  (e.isFiller = true → e.entry.pixel_src = 0 ∧ e.entry.pixel_amount % mult = 0)

/-- Entry length of the open `Original` entry. -/
def entryLen : ActualEntry → Nat
  | .Null lenght _ => lenght
  | .Some _ lenght _ => lenght

/-- Invariant of the `Original` tile loop after `t` tiles: the closed entries
replay to the prefix before the open entry, the open entry replays to the
rest of the consumed prefix, and an open literal entry byte range ends
exactly at the current sink position. -/
def OrigInv (pxs : List Nat) (pos0 : Nat) (t : Nat) (st : OrigSt) : Prop :=
  match st.actual with
  | none => t = 0 ∧ st.table = [] ∧ st.written = []
  | some e =>
    0 < t ∧ 0 < entryLen e ∧ entryLen e ≤ 64 * t ∧ 2 ∣ entryLen e ∧
    replayTable pos0 st.written st.table =
      some (pxs.take (64 * t - entryLen e)) ∧
    replayEntry pos0 st.written e.to_assembly =
      some ((pxs.take (64 * t)).drop (64 * t - entryLen e)) ∧
    (∀ off l zz, e = .Some off l zz →
      pos0 ≤ off ∧ off - pos0 + l / 2 = st.written.length)

/-- Shape facts of every entry the `Original` and `NoCompression` strategies
push: the byte count is half the pixel count and filler entries carry
`pixel_src` zero. -/
def entryInv0 (e : TaggedEntry) : Prop :=
  e.entry.byte_amount = e.entry.pixel_amount / 2 ∧
  (e.isFiller = true → e.entry.pixel_src = 0)

/-- Parameter conditions under which the `Optimised` scan makes progress on
every iteration; the other strategies have structurally bounded loops. -/
def termOk : CompressionMethod → Prop
  | .CompressionMethodOptimised mult minT => 0 < mult ∧ mult ≤ minT
  | _ => True

/-! ### Basic helper lemmas -/

theorem unpackBytes_append (a b : List Nat) :
    unpackBytes (a ++ b) = unpackBytes a ++ unpackBytes b := by
  induction a with
  | nil => rfl
  | cons x xs ih => simp [unpackBytes, ih]

theorem take_prefix_extend {α : Type} (pxs : List α) {a b : Nat} (h : a ≤ b) :
    pxs.take a ++ (pxs.take b).drop a = pxs.take b := by
  conv_rhs => rw [← List.take_append_drop a (pxs.take b)]
  rw [List.take_take, Nat.min_eq_left h]

theorem take_drop_replicate (pxs : List Nat) {a b : Nat} (hab : a ≤ b)
    (hb : b ≤ pxs.length) (hz : ∀ j, a ≤ j → j < b → pxs[j]? = some 0) :
    (pxs.take b).drop a = List.replicate (b - a) 0 := by
  apply List.ext_getElem?
  intro n
  rw [List.getElem?_drop, List.getElem?_take, List.getElem?_replicate]
  by_cases hn : n < b - a
  · rw [if_pos (by omega), if_pos hn]
    exact hz (a + n) (by omega) (by omega)
  · rw [if_neg (by omega), if_neg hn]

theorem countZeros_le_length (l : List Nat) : countZeros l ≤ l.length := by
  induction l with
  | nil => simp [countZeros]
  | cons p rest ih =>
    by_cases hp : p = 0 <;> simp [countZeros, hp] <;> omega

theorem countZeros_zeros (l : List Nat) :
    ∀ j < countZeros l, l[j]? = some 0 := by
  induction l with
  | nil => simp [countZeros]
  | cons p rest ih =>
    intro j hj
    by_cases hp : p = 0
    · simp only [countZeros, hp, if_true, if_pos] at hj
      cases j with
      | zero => simp [hp]
      | succ k => simpa using ih k (by omega)
    · simp [countZeros, hp] at hj

theorem le_countZeros (l : List Nat) (n : Nat)
    (h : ∀ j < n, l[j]? = some 0) : n ≤ countZeros l := by
  induction l generalizing n with
  | nil =>
    cases n with
    | zero => simp
    | succ k => simpa using h 0 (by omega)
  | cons p rest ih =>
    cases n with
    | zero => simp
    | succ k =>
      have h0 : p = 0 := by simpa using h 0 (by omega)
      have : k ≤ countZeros rest := ih k (fun j hj => by simpa using h (j + 1) (by omega))
      simp [countZeros, h0]
      omega

theorem allTransp_iff (pxs : List Nat) (i n : Nat) :
    allTransp pxs i n = true ↔ ∀ l < n, pxs.getD (i + l) 1 = 0 := by
  simp [allTransp, List.all_eq_true, List.mem_range]

theorem getD_eq_some {pxs : List Nat} {j v : Nat} (h : j < pxs.length) :
    pxs.getD j 1 = v ↔ pxs[j]? = some v := by
  rw [List.getD_eq_getElem?_getD, List.getElem?_eq_getElem h]
  simp

/-! ### Replay lemmas: appending bytes to the sink or entries to the table -/

theorem replayEntry_mono {pos0 : Nat} {ws ext : List Nat} {e : TaggedEntry}
    {r : List Nat} (h : replayEntry pos0 ws e = some r) :
    replayEntry pos0 (ws ++ ext) e = some r := by
  unfold replayEntry at h ⊢
  by_cases hf : e.isFiller
  · simpa [hf] using h
  · simp only [hf, if_false, Bool.false_eq_true] at h ⊢
    by_cases hc : pos0 ≤ e.entry.pixel_src ∧
        e.entry.pixel_src - pos0 + e.entry.byte_amount ≤ ws.length
    · have hc2 : pos0 ≤ e.entry.pixel_src ∧
          e.entry.pixel_src - pos0 + e.entry.byte_amount ≤ (ws ++ ext).length := by
        simp only [List.length_append]
        exact ⟨hc.1, by omega⟩
      rw [if_pos hc] at h
      rw [if_pos hc2, ← h]
      congr 1
      rw [List.drop_append_of_le_length (by omega),
        List.take_append_of_le_length (by simp [List.length_drop]; omega)]
    · rw [if_neg hc] at h
      exact absurd h (by simp)

theorem replayTable_mono {pos0 : Nat} {ws ext : List Nat} {t : List TaggedEntry}
    {r : List Nat} (h : replayTable pos0 ws t = some r) :
    replayTable pos0 (ws ++ ext) t = some r := by
  induction t generalizing r with
  | nil => simpa [replayTable] using h
  | cons e rest ih =>
    unfold replayTable at h ⊢
    cases he : replayEntry pos0 ws e with
    | none => rw [he] at h; exact absurd h (by simp)
    | some a =>
      rw [he] at h
      cases hr : replayTable pos0 ws rest with
      | none => rw [hr] at h; exact absurd h (by simp)
      | some b =>
        rw [hr] at h
        rw [replayEntry_mono he, ih hr]
        exact h

theorem replayTable_append {pos0 : Nat} {ws : List Nat} {t1 t2 : List TaggedEntry}
    {a b : List Nat} (h1 : replayTable pos0 ws t1 = some a)
    (h2 : replayTable pos0 ws t2 = some b) :
    replayTable pos0 ws (t1 ++ t2) = some (a ++ b) := by
  induction t1 generalizing a with
  | nil =>
    have ha : a = [] := by simpa [replayTable] using h1.symm
    subst ha
    simpa using h2
  | cons e rest ih =>
    rw [List.cons_append]
    unfold replayTable at h1 ⊢
    cases he : replayEntry pos0 ws e with
    | none => rw [he] at h1; exact absurd h1 (by simp)
    | some x =>
      rw [he] at h1
      cases hr : replayTable pos0 ws rest with
      | none => rw [hr] at h1; exact absurd h1 (by simp)
      | some y =>
        rw [hr] at h1
        rw [ih hr]
        simp only [Option.some.injEq] at h1
        simp [← h1]

theorem replayTable_snoc {pos0 : Nat} {ws : List Nat} {t : List TaggedEntry}
    {e : TaggedEntry} {a r : List Nat} (h1 : replayTable pos0 ws t = some a)
    (h2 : replayEntry pos0 ws e = some r) :
    replayTable pos0 ws (t ++ [e]) = some (a ++ r) := by
  apply replayTable_append h1
  unfold replayTable
  rw [h2]
  simp [replayTable]

/-! ### Nibble packing -/

theorem packByte_lt16 {p0 p1 : Nat} (h0 : p0 < 16) (h1 : p1 < 16) :
    packByte p0 p1 = some (p0 * 16 + p1) := by
  unfold packByte
  rw [Nat.mod_eq_of_lt (by omega), Nat.mod_eq_of_lt (by omega), if_pos (by omega)]

theorem packPairs_sound : ∀ l : List Nat, (∀ p ∈ l, p < 16) →
    ∃ bs, packPairs l = some bs ∧ bs.length = l.length / 2 ∧
      unpackBytes bs = l.take (2 * (l.length / 2)) ∧
      ∀ i, 2 * i + 1 < l.length →
        bs[i]? = some (16 * l.getD (2 * i) 0 + l.getD (2 * i + 1) 0)
  | [], h => ⟨[], rfl, rfl, rfl, by intro i hi; simp at hi⟩
  | [p], h => ⟨[], rfl, by simp, by simp [unpackBytes],
      by intro i hi; simp at hi⟩
  | p0 :: p1 :: rest, h => by
    have h0 : p0 < 16 := h p0 (by simp)
    have h1 : p1 < 16 := h p1 (by simp)
    obtain ⟨bs, hbs, hlen, hunp, hidx⟩ :=
      packPairs_sound rest (fun p hp => h p (by simp [hp]))
    refine ⟨(p0 * 16 + p1) :: bs, ?_, ?_, ?_, ?_⟩
    · unfold packPairs
      rw [packByte_lt16 h0 h1, hbs]
    · simp only [List.length_cons, hlen]
      omega
    · have hdiv : (p0 * 16 + p1) / 16 = p0 := by omega
      have hmod : (p0 * 16 + p1) % 16 = p1 := by omega
      have h2 : 2 * ((p0 :: p1 :: rest).length / 2) = 2 * (rest.length / 2) + 2 := by
        simp only [List.length_cons]
        omega
      rw [h2]
      simp only [unpackBytes, hdiv, hmod, List.take_succ_cons, hunp]
    · intro i hi
      cases i with
      | zero => simp [Nat.mul_comm]
      | succ k =>
        have hlt : 2 * k + 1 < rest.length := by
          simp only [List.length_cons] at hi
          omega
        have e1 : 2 * (k + 1) = 2 * k + 1 + 1 := by ring
        rw [e1]
        simp only [List.getD_cons_succ, List.getElem?_cons_succ]
        exact hidx k hlt

/-! ### The bit-extraction helper -/

theorem get_bit_aux (byte k : Nat) :
    (1 ≤ (byte >>> k) <<< 15 % 65536) ↔ Nat.testBit byte k := by
  rw [Nat.shiftLeft_eq, Nat.shiftRight_eq_div_pow]
  have h65536 : (65536 : Nat) = 2 * 2 ^ 15 := by norm_num
  rw [h65536, Nat.mul_mod_mul_right, Nat.testBit_to_div_mod]
  have h2 : byte / 2 ^ k % 2 = 0 ∨ byte / 2 ^ k % 2 = 1 := by omega
  rcases h2 with h2 | h2 <;> simp [h2]

/-! ### NoCompression strategy -/

theorem compress_none_eq {img : Image} {pxs : List Nat} (pos0 fuel : Nat)
    (h : ∀ p ∈ pxs, p < 16) :
    ∃ bs, packPairs pxs = some bs ∧ bs.length = pxs.length / 2 ∧
      compress .NoCompression img pxs pos0 fuel =
        .ok [⟨⟨pos0, bs.length * 2, bs.length, img.z_index⟩, false⟩] bs := by
  obtain ⟨bs, hbs, hlen, _⟩ := packPairs_sound pxs h
  exact ⟨bs, hbs, hlen, by simp [compress, hbs]⟩

theorem none_roundtrip {img : Image} {pxs : List Nat} (pos0 fuel : Nat)
    (h : ∀ p ∈ pxs, p < 16) (heven : 2 ∣ pxs.length) :
    ∃ table ws, compress .NoCompression img pxs pos0 fuel = .ok table ws ∧
      replayTable pos0 ws table = some pxs := by
  obtain ⟨bs, hbs, hlen, hunp, _⟩ := packPairs_sound pxs h
  refine ⟨[⟨⟨pos0, bs.length * 2, bs.length, img.z_index⟩, false⟩], bs,
    by simp [compress, hbs], ?_⟩
  have he : replayEntry pos0 bs
      ⟨⟨pos0, bs.length * 2, bs.length, img.z_index⟩, false⟩ = some pxs := by
    unfold replayEntry
    rw [if_neg (by simp), if_pos (by simp)]
    simp only [Nat.sub_self, List.drop_zero, List.take_length]
    rw [hunp]
    congr 1
    obtain ⟨k, hk⟩ := heven
    rw [hk]
    have h2 : 2 * (2 * k / 2) = 2 * k := by omega
    rw [h2, ← hk, List.take_length]
  unfold replayTable
  rw [he]
  simp [replayTable]

/-! ### Optimised strategy: characterizations of one scan step -/

theorem optStep_trigger {mult minT : Nat} {pxs : List Nat} {pos0 z : Nat}
    {s : OptState} (h2 : s.pixel_id % 2 = 0) (hm : mult ≠ 0)
    (htr : trigCond mult minT pxs s) :
    optStep mult minT pxs pos0 z s =
      .cont ⟨s.pixel_id + countZeros (pxs.drop s.pixel_id) -
               (s.pixel_id + countZeros (pxs.drop s.pixel_id)) % mult,
             0,
             (if 0 < s.number_of_byte_to_include then pos0 + s.written.length
              else s.byte_include_start),
             (if 0 < s.number_of_byte_to_include then
                s.table ++ [⟨⟨s.byte_include_start,
                              s.number_of_byte_to_include * 2,
                              s.number_of_byte_to_include, z⟩, false⟩]
              else s.table) ++
               [⟨⟨0, countZeros (pxs.drop s.pixel_id) -
                     (s.pixel_id + countZeros (pxs.drop s.pixel_id)) % mult,
                   (countZeros (pxs.drop s.pixel_id) -
                     (s.pixel_id + countZeros (pxs.drop s.pixel_id)) % mult) / 2,
                   z⟩, true⟩],
             s.written⟩ := by
  obtain ⟨ha, hb, hc⟩ := htr
  unfold optStep
  rw [if_neg (by omega), if_neg hm, if_pos ⟨ha, hb, hc⟩]
  by_cases hnb : 0 < s.number_of_byte_to_include
  · simp only [if_pos hnb]
  · have h0 : s.number_of_byte_to_include = 0 := by omega
    simp [h0]

theorem optStep_literal {mult minT : Nat} {pxs : List Nat} {pos0 z : Nat}
    {s : OptState} {p0 p1 : Nat} (h2 : s.pixel_id % 2 = 0) (hm : mult ≠ 0)
    (hntr : ¬ trigCond mult minT pxs s) (hlt : s.pixel_id < pxs.length)
    (hp0 : pxs[s.pixel_id]? = some p0) (hp1 : pxs[s.pixel_id + 1]? = some p1)
    (h160 : p0 < 16) (h161 : p1 < 16) :
    optStep mult minT pxs pos0 z s =
      .cont ⟨s.pixel_id + 2, s.number_of_byte_to_include + 1,
             s.byte_include_start, s.table, s.written ++ [p0 * 16 + p1]⟩ := by
  unfold optStep
  unfold trigCond at hntr
  rw [if_neg (by omega), if_neg hm, if_neg hntr, if_neg (by omega), hp0, hp1]
  simp only [if_pos (And.intro h160 h161)]

theorem optStep_finished {mult minT : Nat} {pxs : List Nat} {pos0 z : Nat}
    {s : OptState} (h2 : s.pixel_id % 2 = 0) (hm : mult ≠ 0)
    (hntr : ¬ trigCond mult minT pxs s) (hge : pxs.length ≤ s.pixel_id) :
    optStep mult minT pxs pos0 z s = .finished s := by
  unfold optStep
  unfold trigCond at hntr
  rw [if_neg (by omega), if_neg hm, if_neg hntr, if_pos (by omega)]

/-! ### Optimised strategy: loop invariant -/

theorem flush_replay {pxs : List Nat} {pos0 z : Nat} {s : OptState}
    (hinv : OInv pxs pos0 s) :
    replayTable pos0 s.written (s.table ++
      [⟨⟨s.byte_include_start, s.number_of_byte_to_include * 2,
         s.number_of_byte_to_include, z⟩, false⟩]) =
      some (pxs.take s.pixel_id) := by
  obtain ⟨h2, hle, hnb2, hnbw, hbis, hrt, hpend⟩ := hinv
  have hentry : replayEntry pos0 s.written
      ⟨⟨s.byte_include_start, s.number_of_byte_to_include * 2,
        s.number_of_byte_to_include, z⟩, false⟩ =
      some ((pxs.take s.pixel_id).drop
        (s.pixel_id - 2 * s.number_of_byte_to_include)) := by
    unfold replayEntry
    rw [if_neg (by simp), if_pos (by simp [hbis]; omega)]
    simp only [hbis, Nat.add_sub_cancel_left]
    have hlen : (s.written.drop
        (s.written.length - s.number_of_byte_to_include)).length =
        s.number_of_byte_to_include := by
      rw [List.length_drop]
      omega
    rw [List.take_of_length_le (le_of_eq hlen), hpend]
  have := replayTable_snoc hrt hentry
  rw [this]
  congr 1
  exact take_prefix_extend pxs (by omega)

theorem OInv_trigger {mult minT : Nat} {pxs : List Nat} {pos0 : Nat} (z : Nat)
    {s : OptState} (hm0 : 0 < mult) (hm2 : 2 ∣ mult) (hmm : mult ≤ minT)
    (hinv : OInv pxs pos0 s) (htr : trigCond mult minT pxs s) :
    ∃ s1, optStep mult minT pxs pos0 z s = .cont s1 ∧ OInv pxs pos0 s1 ∧
      s.pixel_id + mult ≤ s1.pixel_id ∧ s1.written = s.written := by
  obtain ⟨h2, hle, hnb2, hnbw, hbis, hrt, hpend⟩ := hinv
  obtain ⟨hal, hsp, hat⟩ := htr
  set pid := s.pixel_id with hpid
  set run := countZeros (pxs.drop pid) with hrun
  -- the greedy transparent run is at least `min_transparent_to_compress` long
  have hrun_min : minT ≤ run := by
    apply le_countZeros
    intro j hj
    rw [List.getElem?_drop]
    rw [← getD_eq_some (by omega)]
    exact (allTransp_iff pxs pid minT).1 hat j hj
  have hrun_le : run ≤ pxs.length - pid := by
    have := countZeros_le_length (pxs.drop pid)
    rwa [List.length_drop] at this
  set rem := (pid + run) % mult with hremdef
  have hrem : rem = run % mult := by
    rw [hremdef, Nat.add_mod, hal, Nat.zero_add, Nat.mod_mod_of_dvd run dvd_rfl]
  have hremlt : rem < mult := by
    rw [hrem]
    exact Nat.mod_lt _ hm0
  have hdm := Nat.div_add_mod run mult
  have htile_eq : run - rem = mult * (run / mult) := by
    rw [hrem]
    omega
  have htile_div : mult ∣ run - rem := ⟨run / mult, htile_eq⟩
  have hqpos : 0 < run / mult :=
    Nat.div_pos (le_trans hmm hrun_min) hm0
  have htile_ge : mult ≤ run - rem := by
    rw [htile_eq]
    exact Nat.le_mul_of_pos_right mult hqpos
  have hrem_le : rem ≤ run := by
    rw [hrem]
    exact Nat.mod_le _ _
  have hzeros : ∀ j, pid ≤ j → j < pid + (run - rem) → pxs[j]? = some 0 := by
    intro j hj1 hj2
    have hz := countZeros_zeros (pxs.drop pid) (j - pid) (by omega)
    rw [List.getElem?_drop] at hz
    have : pid + (j - pid) = j := by omega
    rwa [this] at hz
  have hB2 : 2 ∣ pid + run - rem := by
    have h2t : 2 ∣ run - rem := dvd_trans hm2 htile_div
    obtain ⟨a, ha⟩ := h2
    obtain ⟨b, hb⟩ := h2t
    exact ⟨a + b, by omega⟩
  have hBle : pid + run - rem ≤ pxs.length := by omega
  have htbl1 : replayTable pos0 s.written
      (if 0 < s.number_of_byte_to_include then
        s.table ++ [⟨⟨s.byte_include_start, s.number_of_byte_to_include * 2,
                      s.number_of_byte_to_include, z⟩, false⟩]
      else s.table) = some (pxs.take pid) := by
    by_cases hf : 0 < s.number_of_byte_to_include
    · rw [if_pos hf]
      exact flush_replay ⟨h2, hle, hnb2, hnbw, hbis, hrt, hpend⟩
    · rw [if_neg hf]
      have h0 : s.number_of_byte_to_include = 0 := by omega
      rw [hrt, h0]
      simp
  have hfiller : replayEntry pos0 s.written
      ⟨⟨0, run - rem, (run - rem) / 2, z⟩, true⟩ =
      some (List.replicate (run - rem) 0) := by
    unfold replayEntry
    rw [if_pos (by simp)]
  have hrt1 := replayTable_snoc htbl1 hfiller
  refine ⟨⟨pid + run - rem, 0,
      (if 0 < s.number_of_byte_to_include then pos0 + s.written.length
       else s.byte_include_start),
      (if 0 < s.number_of_byte_to_include then
        s.table ++ [⟨⟨s.byte_include_start, s.number_of_byte_to_include * 2,
                      s.number_of_byte_to_include, z⟩, false⟩]
      else s.table) ++ [⟨⟨0, run - rem, (run - rem) / 2, z⟩, true⟩],
      s.written⟩, ?_, ?_, ?_, rfl⟩
  · rw [optStep_trigger (by omega) (by omega) ⟨hal, hsp, hat⟩]
  · refine ⟨hB2, hBle, by dsimp only; omega, by dsimp only; omega, ?_, ?_, ?_⟩
    · dsimp only
      by_cases hf : 0 < s.number_of_byte_to_include
      · rw [if_pos hf]
        omega
      · rw [if_neg hf]
        rw [hbis]
        omega
    · dsimp only
      rw [hrt1]
      have hseg : (pxs.take (pid + run - rem)).drop pid =
          List.replicate (pid + run - rem - pid) 0 :=
        take_drop_replicate pxs (by omega) hBle
          (fun j hj1 hj2 => hzeros j hj1 (by omega))
      have hcomb := take_prefix_extend pxs
        (show pid ≤ pid + run - rem by omega)
      rw [hseg] at hcomb
      have hd : pid + run - rem - pid = run - rem := by omega
      rw [hd] at hcomb
      rw [Nat.mul_zero, Nat.sub_zero, ← hcomb]
    · dsimp only
      rw [Nat.mul_zero, Nat.sub_zero, Nat.sub_zero, List.drop_length]
      rw [List.drop_eq_nil_of_le (by
        rw [List.length_take]
        omega)]
      rfl
  · -- progress: the index advances by at least `multiple_of_value`
    dsimp only
    omega

theorem OInv_literal {mult minT : Nat} {pxs : List Nat} {pos0 : Nat} (z : Nat)
    {s : OptState} (hm : mult ≠ 0) (hntr : ¬ trigCond mult minT pxs s)
    (hlt : s.pixel_id < pxs.length) (heven : 2 ∣ pxs.length)
    (hpx : pixelOk pxs) (hinv : OInv pxs pos0 s) :
    ∃ s1, optStep mult minT pxs pos0 z s = .cont s1 ∧ OInv pxs pos0 s1 ∧
      s1.pixel_id = s.pixel_id + 2 := by
  obtain ⟨h2, hle, hnb2, hnbw, hbis, hrt, hpend⟩ := hinv
  have hlt1 : s.pixel_id + 1 < pxs.length := by
    obtain ⟨a, ha⟩ := h2
    obtain ⟨b, hb⟩ := heven
    omega
  have hp0 : pxs[s.pixel_id]? = some pxs[s.pixel_id] :=
    List.getElem?_eq_getElem hlt
  have hp1 : pxs[s.pixel_id + 1]? = some pxs[s.pixel_id + 1] :=
    List.getElem?_eq_getElem hlt1
  have h160 : pxs[s.pixel_id] < 16 := hpx _ (List.getElem_mem hlt)
  have h161 : pxs[s.pixel_id + 1] < 16 := hpx _ (List.getElem_mem hlt1)
  set p0 := pxs[s.pixel_id] with hp0d
  set p1 := pxs[s.pixel_id + 1] with hp1d
  refine ⟨⟨s.pixel_id + 2, s.number_of_byte_to_include + 1,
      s.byte_include_start, s.table, s.written ++ [p0 * 16 + p1]⟩,
    optStep_literal (by omega) hm hntr hlt hp0 hp1 h160 h161, ?_, rfl⟩
  have hlen1 : (s.written ++ [p0 * 16 + p1]).length = s.written.length + 1 := by
    simp
  refine ⟨by dsimp only; omega, by dsimp only; omega, by dsimp only; omega,
    by dsimp only; rw [hlen1]; omega, by dsimp only; rw [hlen1]; omega, ?_, ?_⟩
  · dsimp only
    have hidx : s.pixel_id + 2 - 2 * (s.number_of_byte_to_include + 1) =
        s.pixel_id - 2 * s.number_of_byte_to_include := by omega
    rw [hidx]
    exact replayTable_mono hrt
  · dsimp only
    rw [hlen1]
    have hidx0 : s.written.length + 1 - (s.number_of_byte_to_include + 1) =
        s.written.length - s.number_of_byte_to_include := by omega
    have hidx1 : s.pixel_id + 2 - 2 * (s.number_of_byte_to_include + 1) =
        s.pixel_id - 2 * s.number_of_byte_to_include := by omega
    rw [hidx0, hidx1]
    rw [List.drop_append_of_le_length (by omega), unpackBytes_append, hpend]
    have htake2 : pxs.take (s.pixel_id + 2) = pxs.take s.pixel_id ++ [p0, p1] := by
      have e1 : s.pixel_id + 2 = s.pixel_id + 1 + 1 := by omega
      rw [e1, List.take_succ, hp1, List.take_succ, hp0]
      simp
    rw [htake2, List.drop_append_of_le_length (by
      rw [List.length_take]
      omega)]
    have hb : unpackBytes [p0 * 16 + p1] = [p0, p1] := by
      unfold unpackBytes unpackBytes
      have e0 : (p0 * 16 + p1) / 16 = p0 := by omega
      have e1 : (p0 * 16 + p1) % 16 = p1 := by omega
      rw [e0, e1]
    rw [hb]

theorem optFinish_replay {pxs : List Nat} {pos0 : Nat} (z : Nat) {s : OptState}
    (hinv : OInv pxs pos0 s) (hend : s.pixel_id = pxs.length) :
    ∃ table, optFinish z s = .ok table s.written ∧
      replayTable pos0 s.written table = some pxs := by
  obtain ⟨h2, hle, hnb2, hnbw, hbis, hrt, hpend⟩ := hinv
  unfold optFinish
  by_cases hf : 0 < s.number_of_byte_to_include
  · rw [if_pos hf]
    refine ⟨_, rfl, ?_⟩
    rw [flush_replay ⟨h2, hle, hnb2, hnbw, hbis, hrt, hpend⟩, hend,
      List.take_length]
  · rw [if_neg hf]
    refine ⟨_, rfl, ?_⟩
    rw [hrt]
    have h0 : s.number_of_byte_to_include = 0 := by omega
    rw [h0, hend]
    simp

theorem optLoop_roundtrip {mult minT : Nat} {pxs : List Nat} {pos0 z : Nat}
    (hm0 : 0 < mult) (hm2 : 2 ∣ mult) (hmm : mult ≤ minT)
    (heven : 2 ∣ pxs.length) (hpx : pixelOk pxs) :
    ∀ fuel s, OInv pxs pos0 s → pxs.length - s.pixel_id < fuel →
      ∃ table ws, optLoop mult minT pxs pos0 z fuel s = .ok table ws ∧
        replayTable pos0 ws table = some pxs := by
  intro fuel
  induction fuel with
  | zero => intro s _ h; omega
  | succ f ih =>
    intro s hinv hfuel
    by_cases htr : trigCond mult minT pxs s
    · obtain ⟨s1, hstep, hinv1, hprog, hw⟩ := OInv_trigger z hm0 hm2 hmm hinv htr
      have hf1 : pxs.length - s1.pixel_id < f := by
        obtain ⟨_, hsp, _⟩ := htr
        omega
      obtain ⟨table, ws, hres, hrep⟩ := ih s1 hinv1 hf1
      refine ⟨table, ws, ?_, hrep⟩
      simp only [optLoop]
      rw [hstep]
      exact hres
    · by_cases hend : s.pixel_id < pxs.length
      · obtain ⟨s1, hstep, hinv1, hpid1⟩ :=
          OInv_literal z (by omega) htr hend heven hpx hinv
        have hf1 : pxs.length - s1.pixel_id < f := by omega
        obtain ⟨table, ws, hres, hrep⟩ := ih s1 hinv1 hf1
        refine ⟨table, ws, ?_, hrep⟩
        simp only [optLoop]
        rw [hstep]
        exact hres
      · have hpideq : s.pixel_id = pxs.length := by
          obtain ⟨_, hle, _⟩ := hinv
          omega
        obtain ⟨table, hfin, hrep⟩ := optFinish_replay z hinv hpideq
        refine ⟨table, s.written, ?_, hrep⟩
        simp only [optLoop]
        rw [optStep_finished (by
            obtain ⟨h2d, _⟩ := hinv
            omega) (by omega) htr (by omega)]
        exact hfin

/-! ### Optimised strategy: shape of the pushed entries -/

theorem tile_mod {mult pid run : Nat} (hal : pid % mult = 0) :
    (run - (pid + run) % mult) % mult = 0 := by
  have h1 : (pid + run) % mult = run % mult := by
    rw [Nat.add_mod, hal, Nat.zero_add, Nat.mod_mod_of_dvd run dvd_rfl]
  rw [h1]
  have hdm := Nat.div_add_mod run mult
  have h2 : run - run % mult = mult * (run / mult) := by omega
  rw [h2]
  exact Nat.mul_mod_right _ _

theorem optStep_entryInv {mult minT : Nat} {pxs : List Nat} {pos0 z : Nat}
    {s s1 : OptState}
    (h : optStep mult minT pxs pos0 z s = .cont s1 ∨
         optStep mult minT pxs pos0 z s = .finished s1)
    (hall : ∀ e ∈ s.table, entryInv mult e) :
    ∀ e ∈ s1.table, entryInv mult e := by
  by_cases h2 : s.pixel_id % 2 = 0
  · by_cases hm : mult = 0
    · unfold optStep at h
      rw [if_neg (by omega), if_pos hm] at h
      rcases h with h | h <;> exact absurd h (by simp)
    · by_cases htr : trigCond mult minT pxs s
      · rw [optStep_trigger h2 hm htr] at h
        rcases h with h | h
        · cases h
          intro e he
          dsimp only at he
          rcases List.mem_append.1 he with he1 | he2
          · by_cases hf : 0 < s.number_of_byte_to_include
            · rw [if_pos hf] at he1
              rcases List.mem_append.1 he1 with ho | hl
              · exact hall e ho
              · have he : e = ⟨⟨s.byte_include_start,
                    s.number_of_byte_to_include * 2,
                    s.number_of_byte_to_include, z⟩, false⟩ := by simpa using hl
                subst he
                exact ⟨by dsimp only; omega, by intro hc; simp at hc⟩
            · rw [if_neg hf] at he1
              exact hall e he1
          · have he : e = ⟨⟨0, countZeros (pxs.drop s.pixel_id) -
                (s.pixel_id + countZeros (pxs.drop s.pixel_id)) % mult,
                (countZeros (pxs.drop s.pixel_id) -
                (s.pixel_id + countZeros (pxs.drop s.pixel_id)) % mult) / 2,
                z⟩, true⟩ := by simpa using he2
            subst he
            exact ⟨rfl, fun _ => ⟨rfl, tile_mod htr.1⟩⟩
        · exact absurd h (by simp)
      · by_cases hend : pxs.length ≤ s.pixel_id
        · rw [optStep_finished h2 hm htr hend] at h
          rcases h with h | h
          · exact absurd h (by simp)
          · cases h
            exact hall
        · unfold optStep at h
          unfold trigCond at htr
          rw [if_neg (by omega), if_neg hm, if_neg htr, if_neg (by omega)] at h
          cases hp0 : pxs[s.pixel_id]? with
          | none =>
            rw [hp0] at h
            rcases h with h | h <;> exact absurd h (by simp)
          | some p0 =>
            cases hp1 : pxs[s.pixel_id + 1]? with
            | none =>
              rw [hp0, hp1] at h
              rcases h with h | h <;> exact absurd h (by simp)
            | some p1 =>
              rw [hp0, hp1] at h
              dsimp only at h
              by_cases h16 : p0 < 16 ∧ p1 < 16
              · rw [if_pos h16] at h
                rcases h with h | h
                · cases h
                  exact hall
                · exact absurd h (by simp)
              · rw [if_neg h16] at h
                rcases h with h | h <;> exact absurd h (by simp)
  · unfold optStep at h
    rw [if_pos (by omega)] at h
    rcases h with h | h <;> exact absurd h (by simp)

theorem optLoop_entryInv {mult minT : Nat} {pxs : List Nat} {pos0 z : Nat} :
    ∀ fuel (s : OptState) table ws,
      optLoop mult minT pxs pos0 z fuel s = .ok table ws →
      (∀ e ∈ s.table, entryInv mult e) → ∀ e ∈ table, entryInv mult e := by
  intro fuel
  induction fuel with
  | zero =>
    intro s table ws h
    exact absurd h (by simp [optLoop])
  | succ f ih =>
    intro s table ws h hall
    simp only [optLoop] at h
    cases hstep : optStep mult minT pxs pos0 z s with
    | crashed =>
      rw [hstep] at h
      exact absurd h (by simp)
    | finished s1 =>
      rw [hstep] at h
      dsimp only at h
      have hall1 : ∀ e ∈ s1.table, entryInv mult e :=
        optStep_entryInv (Or.inr hstep) hall
      unfold optFinish at h
      by_cases hf : 0 < s1.number_of_byte_to_include
      · rw [if_pos hf] at h
        have htbl : table = s1.table ++
            [⟨⟨s1.byte_include_start, s1.number_of_byte_to_include * 2,
               s1.number_of_byte_to_include, z⟩, false⟩] := by
          cases h
          rfl
        subst htbl
        intro e he
        rcases List.mem_append.1 he with ho | hl
        · exact hall1 e ho
        · have he2 : e = ⟨⟨s1.byte_include_start,
              s1.number_of_byte_to_include * 2,
              s1.number_of_byte_to_include, z⟩, false⟩ := by simpa using hl
          subst he2
          exact ⟨by dsimp only; omega, by intro hc; simp at hc⟩
      · rw [if_neg hf] at h
        have htbl : table = s1.table := by
          cases h
          rfl
        subst htbl
        exact hall1
    | cont s1 =>
      rw [hstep] at h
      dsimp only at h
      exact ih s1 table ws h (optStep_entryInv (Or.inl hstep) hall)

/-! ### Optimised strategy: progress and termination -/

theorem trig_run_ge {minT : Nat} {pxs : List Nat} {pid : Nat}
    (hsp : pid + minT < pxs.length) (hat : allTransp pxs pid minT = true) :
    minT ≤ countZeros (pxs.drop pid) := by
  apply le_countZeros
  intro j hj
  rw [List.getElem?_drop, ← getD_eq_some (by omega)]
  exact (allTransp_iff pxs pid minT).1 hat j hj

theorem optStep_progress {mult minT : Nat} {pxs : List Nat} {pos0 z : Nat}
    {s s1 : OptState} (hm0 : 0 < mult) (hmm : mult ≤ minT)
    (h : optStep mult minT pxs pos0 z s = .cont s1) :
    s.pixel_id < s1.pixel_id ∧ s.pixel_id < pxs.length := by
  by_cases h2 : s.pixel_id % 2 = 0
  · by_cases htr : trigCond mult minT pxs s
    · rw [optStep_trigger h2 (by omega) htr] at h
      cases h
      obtain ⟨hal, hsp, hat⟩ := htr
      have hrg := trig_run_ge hsp hat
      have hrem : (s.pixel_id + countZeros (pxs.drop s.pixel_id)) % mult =
          countZeros (pxs.drop s.pixel_id) % mult := by
        rw [Nat.add_mod, hal, Nat.zero_add, Nat.mod_mod_of_dvd _ dvd_rfl]
      have hremlt : countZeros (pxs.drop s.pixel_id) % mult < mult :=
        Nat.mod_lt _ hm0
      refine ⟨?_, by omega⟩
      dsimp only
      rw [hrem]
      omega
    · by_cases hend : pxs.length ≤ s.pixel_id
      · rw [optStep_finished h2 (by omega) htr hend] at h
        exact absurd h (by simp)
      · unfold optStep at h
        unfold trigCond at htr
        rw [if_neg (by omega), if_neg (by omega), if_neg htr,
          if_neg (by omega)] at h
        cases hp0 : pxs[s.pixel_id]? with
        | none =>
          rw [hp0] at h
          exact absurd h (by simp)
        | some p0 =>
          cases hp1 : pxs[s.pixel_id + 1]? with
          | none =>
            rw [hp0, hp1] at h
            exact absurd h (by simp)
          | some p1 =>
            rw [hp0, hp1] at h
            dsimp only at h
            by_cases h16 : p0 < 16 ∧ p1 < 16
            · rw [if_pos h16] at h
              cases h
              exact ⟨by dsimp only; omega, by omega⟩
            · rw [if_neg h16] at h
              exact absurd h (by simp)
  · unfold optStep at h
    rw [if_pos (by omega)] at h
    exact absurd h (by simp)

theorem optLoop_no_fuelOut {mult minT : Nat} {pxs : List Nat} {pos0 z : Nat}
    (hm0 : 0 < mult) (hmm : mult ≤ minT) :
    ∀ fuel s, pxs.length - s.pixel_id < fuel →
      optLoop mult minT pxs pos0 z fuel s ≠ .fuelOut := by
  intro fuel
  induction fuel with
  | zero => intro s h; omega
  | succ f ih =>
    intro s h
    simp only [optLoop]
    cases hstep : optStep mult minT pxs pos0 z s with
    | crashed => simp
    | finished s1 =>
      dsimp only
      unfold optFinish
      by_cases hf : 0 < s1.number_of_byte_to_include
      · rw [if_pos hf]
        simp
      · rw [if_neg hf]
        simp
    | cont s1 =>
      dsimp only
      obtain ⟨hprog, hlt⟩ := optStep_progress hm0 hmm hstep
      exact ih s1 (by omega)

theorem optLoop_stuck : ∀ fuel (s : OptState), s.pixel_id = 0 →
    optLoop 2 0 [1, 1] 0 0 fuel s = .fuelOut := by
  intro fuel
  induction fuel with
  | zero => intro s hp; rfl
  | succ f ih =>
    intro s hp
    have htr : trigCond 2 0 [1, 1] s := by
      refine ⟨by omega, by simp; omega, by simp [allTransp]⟩
    simp only [optLoop]
    rw [optStep_trigger (by omega) (by omega) htr]
    dsimp only
    apply ih
    dsimp only
    rw [hp]
    decide

/-! ### Original strategy: helpers -/

theorem segment_split {α : Type} (pxs : List α) {a b c : Nat} (hab : a ≤ b)
    (hbc : b ≤ c) (hcl : c ≤ pxs.length) :
    (pxs.take c).drop a = (pxs.take b).drop a ++ (pxs.take c).drop b := by
  have h1 := take_prefix_extend pxs hbc
  conv_lhs => rw [← h1]
  rw [List.drop_append_of_le_length (by rw [List.length_take]; omega)]

theorem readArea_eq {pxs : List Nat} {i n : Nat} (h : i + n ≤ pxs.length) :
    readArea pxs i n = some ((pxs.drop i).take n) := by
  unfold readArea
  rw [if_pos h]

theorem area_length {pxs : List Nat} {i n : Nat} (h : i + n ≤ pxs.length) :
    ((pxs.drop i).take n).length = n := by
  rw [List.length_take, List.length_drop]
  omega

theorem area_getElem? {pxs : List Nat} {i n : Nat} (j : Nat) (hj : j < n) :
    ((pxs.drop i).take n)[j]? = pxs[i + j]? := by
  rw [List.getElem?_take, if_pos hj, List.getElem?_drop]

theorem area_black_iff {pxs : List Nat} {i n : Nat} (h : i + n ≤ pxs.length) :
    ((pxs.drop i).take n).all (· == 0) = true ↔
      (∀ j, i ≤ j → j < i + n → pxs[j]? = some 0) := by
  rw [List.all_eq_true]
  constructor
  · intro ha j hj1 hj2
    have hjl : j < pxs.length := by omega
    have hmem : pxs[j] ∈ (pxs.drop i).take n := by
      rw [List.mem_iff_getElem?]
      refine ⟨j - i, ?_⟩
      rw [area_getElem? (j - i) (by omega)]
      have he : i + (j - i) = j := by omega
      rw [he]
      exact List.getElem?_eq_getElem hjl
    have := ha _ hmem
    rw [List.getElem?_eq_getElem hjl]
    simpa using this
  · intro hz x hx
    rw [List.mem_iff_getElem?] at hx
    obtain ⟨j, hj⟩ := hx
    have hjn : j < n := by
      by_contra hc
      rw [List.getElem?_take, if_neg hc] at hj
      exact absurd hj (by simp)
    rw [area_getElem? j hjn] at hj
    have := hz (i + j) (by omega) (by omega)
    rw [this] at hj
    simp only [Option.some.injEq] at hj
    simp [← hj]

theorem area_pixelOk {pxs : List Nat} (hpx : pixelOk pxs) (i n : Nat) :
    ∀ p ∈ (pxs.drop i).take n, p < 16 := by
  intro p hp
  exact hpx p (List.mem_of_mem_drop (List.mem_of_mem_take hp))

theorem replayEntry_null (pos0 : Nat) (ws : List Nat) (l zz : Nat) :
    replayEntry pos0 ws (ActualEntry.Null l zz).to_assembly =
      some (List.replicate l 0) := by
  simp [ActualEntry.to_assembly, replayEntry]

theorem replayEntry_some_eq {pos0 : Nat} {ws : List Nat} (off l zz : Nat)
    (h1 : pos0 ≤ off) (h2 : off - pos0 + l / 2 ≤ ws.length) :
    replayEntry pos0 ws (ActualEntry.Some off l zz).to_assembly =
      some (unpackBytes ((ws.drop (off - pos0)).take (l / 2))) := by
  simp only [ActualEntry.to_assembly, replayEntry]
  rw [if_neg (by simp), if_pos ⟨h1, h2⟩]

theorem pack_area {pxs : List Nat} (hpx : pixelOk pxs) {i : Nat}
    (h : i + 64 ≤ pxs.length) :
    ∃ W, packPairs ((pxs.drop i).take 64) = some W ∧ W.length = 32 ∧
      unpackBytes W = (pxs.drop i).take 64 := by
  obtain ⟨W, hW, hlen, hunp, _⟩ := packPairs_sound _ (area_pixelOk hpx i 64)
  refine ⟨W, hW, ?_, ?_⟩
  · rw [hlen, area_length h]
  · rw [hunp, area_length h]
    norm_num

theorem origTileStep_inv {pxs : List Nat} {pos0 z : Nat} {t : Nat} {st : OrigSt}
    (hpx : pixelOk pxs) (hlen : (t + 1) * 64 ≤ pxs.length)
    (hinv : OrigInv pxs pos0 t st) :
    ∃ st1, origTileStep pxs z pos0 st t = some st1 ∧
      OrigInv pxs pos0 (t + 1) st1 := by
  obtain ⟨act, tbl, ws⟩ := st
  have hb64 : t * 64 + 64 ≤ pxs.length := by omega
  have harea := readArea_eq hb64
  by_cases hblack : ((pxs.drop (t * 64)).take 64).all (· == 0) = true
  · -- all-transparent tile
    have hzeros : ∀ j, t * 64 ≤ j → j < t * 64 + 64 → pxs[j]? = some 0 :=
      (area_black_iff hb64).1 hblack
    have hrepl : (pxs.take (t * 64 + 64)).drop (t * 64) =
        List.replicate 64 0 := by
      have h := take_drop_replicate pxs (show t * 64 ≤ t * 64 + 64 by omega)
        hb64 (fun j h1 h2 => hzeros j h1 h2)
      simpa using h
    have hnew : (pxs.take (64 * (t + 1))).drop (64 * t) =
        List.replicate 64 0 := by
      have hidx2 : 64 * (t + 1) = t * 64 + 64 := by omega
      have hidx3 : 64 * t = t * 64 := by omega
      rw [hidx2, hidx3]
      exact hrepl
    cases act with
    | none =>
      unfold OrigInv at hinv
      dsimp only at hinv
      obtain ⟨ht0, htbl, hws⟩ := hinv
      subst ht0
      subst htbl
      subst hws
      refine ⟨⟨some (.Null 64 z), [], []⟩, ?_, ?_⟩
      · unfold origTileStep
        rw [harea]
        dsimp only
        rw [hblack]
        simp [ActualEntry.new]
      · unfold OrigInv
        dsimp only
        refine ⟨by omega, by norm_num [entryLen], by norm_num [entryLen],
          by norm_num [entryLen], ?_, ?_, ?_⟩
        · norm_num [entryLen, replayTable]
        · rw [replayEntry_null]
          norm_num [entryLen]
          simpa using hnew.symm
        · intro off l zz h
          exact absurd h (by simp)
    | some e =>
      unfold OrigInv at hinv
      dsimp only at hinv
      obtain ⟨ht, hl0, hlle, hl2, hrt, hre, hoff⟩ := hinv
      cases e with
      | Null l zz =>
        -- merge: advance the open filler entry by 64
        refine ⟨⟨some (.Null (l + 64) zz), tbl, ws ++ []⟩, ?_, ?_⟩
        · unfold origTileStep
          rw [harea]
          dsimp only
          rw [hblack]
          simp [ActualEntry.advance]
        · unfold OrigInv
          dsimp only
          simp only [entryLen] at hl0 hlle hl2 hrt hre ⊢
          rw [List.append_nil]
          rw [replayEntry_null] at hre
          refine ⟨by omega, by omega, by omega, by omega, ?_, ?_, ?_⟩
          · have hidx0 : 64 * (t + 1) - (l + 64) = 64 * t - l := by omega
            rw [hidx0, hrt]
          · rw [replayEntry_null]
            have hidx : 64 * (t + 1) - (l + 64) = 64 * t - l := by omega
            rw [hidx]
            have hsplit := segment_split pxs
              (show 64 * t - l ≤ 64 * t by omega)
              (show 64 * t ≤ 64 * (t + 1) by omega)
              (show 64 * (t + 1) ≤ pxs.length by omega)
            rw [hsplit, hnew]
            have hold : (pxs.take (64 * t)).drop (64 * t - l) =
                List.replicate l 0 := by simpa using hre.symm
            rw [hold, ← List.replicate_add]
          · intro off1 l1 zz1 h
            exact absurd h (by simp)
      | Some off l zz =>
        -- close the literal entry, open a filler entry
        obtain ⟨hposle, hoffw⟩ := hoff off l zz rfl
        refine ⟨⟨some (.Null 64 z),
          tbl ++ [(ActualEntry.Some off l zz).to_assembly], ws ++ []⟩, ?_, ?_⟩
        · unfold origTileStep
          rw [harea]
          dsimp only
          rw [hblack]
          simp [ActualEntry.new]
        · unfold OrigInv
          dsimp only
          simp only [entryLen] at hl0 hlle hl2 hrt hre ⊢
          rw [List.append_nil]
          have hrt1 := replayTable_snoc hrt hre
          rw [take_prefix_extend pxs (by omega)] at hrt1
          refine ⟨by omega, by omega, by omega, by omega, ?_, ?_, ?_⟩
          · have hidx0 : 64 * (t + 1) - 64 = 64 * t := by omega
            rw [hidx0, hrt1]
          · rw [replayEntry_null]
            have hidx : 64 * (t + 1) - 64 = 64 * t := by omega
            rw [hidx, hnew]
          · intro off1 l1 zz1 h
            exact absurd h (by simp)
  · -- tile with a non-transparent pixel: 32 bytes are written
    have hbf : ((pxs.drop (t * 64)).take 64).all (· == 0) = false := by
      simpa using hblack
    obtain ⟨W, hW, hWlen, hWunp⟩ := pack_area hpx hb64
    have hnew : (pxs.take (64 * (t + 1))).drop (64 * t) =
        (pxs.drop (t * 64)).take 64 := by
      have hidx2 : 64 * (t + 1) = t * 64 + 64 := by omega
      have hidx3 : 64 * t = t * 64 := by omega
      rw [hidx2, hidx3, List.drop_take]
      congr 1
      omega
    cases act with
    | none =>
      unfold OrigInv at hinv
      dsimp only at hinv
      obtain ⟨ht0, htbl, hws⟩ := hinv
      subst ht0
      subst htbl
      subst hws
      refine ⟨⟨some (.Some pos0 64 z), [], [] ++ W⟩, ?_, ?_⟩
      · unfold origTileStep
        rw [harea]
        dsimp only
        rw [hbf]
        simp only [Bool.false_eq_true, if_false, hW]
        simp [ActualEntry.new]
      · unfold OrigInv
        dsimp only
        simp only [entryLen]
        rw [List.nil_append]
        refine ⟨by omega, by omega, by omega, by omega,
          by norm_num [replayTable], ?_, ?_⟩
        · rw [replayEntry_some_eq pos0 64 z (le_refl pos0) (by simp [hWlen])]
          rw [Nat.sub_self]
          simp only [List.nil_append, List.drop_zero]
          rw [List.take_of_length_le (by simp [hWlen]), hWunp]
          norm_num [entryLen]
        · intro off1 l1 zz1 h
          have ho : off1 = pos0 ∧ l1 = 64 := by
            cases h
            exact ⟨rfl, rfl⟩
          obtain ⟨rfl, rfl⟩ := ho
          simp [hWlen]
    | some e =>
      unfold OrigInv at hinv
      dsimp only at hinv
      obtain ⟨ht, hl0, hlle, hl2, hrt, hre, hoff⟩ := hinv
      cases e with
      | Null l zz =>
        -- close the filler entry, open a literal entry
        refine ⟨⟨some (.Some (pos0 + ws.length) 64 z),
          tbl ++ [(ActualEntry.Null l zz).to_assembly], ws ++ W⟩, ?_, ?_⟩
        · unfold origTileStep
          rw [harea]
          dsimp only
          rw [hbf]
          simp only [Bool.false_eq_true, if_false, hW]
          simp [ActualEntry.new]
        · unfold OrigInv
          dsimp only
          simp only [entryLen] at hl0 hlle hl2 hrt hre ⊢
          have hrt1 := replayTable_snoc hrt hre
          rw [take_prefix_extend pxs (by omega)] at hrt1
          have hrt2 : replayTable pos0 (ws ++ W)
              (tbl ++ [(ActualEntry.Null l zz).to_assembly]) =
              some (pxs.take (64 * t)) := replayTable_mono hrt1
          refine ⟨by omega, by omega, by omega, by omega, ?_, ?_, ?_⟩
          · have hidx0 : 64 * (t + 1) - 64 = 64 * t := by omega
            rw [hidx0, hrt2]
          · rw [replayEntry_some_eq (pos0 + ws.length) 64 z (by omega)
              (by rw [List.length_append, hWlen]; omega)]
            have hd : pos0 + ws.length - pos0 = ws.length := by omega
            rw [hd, List.drop_left]
            rw [List.take_of_length_le (by simp [hWlen]), hWunp]
            have hidx : 64 * (t + 1) - 64 = 64 * t := by omega
            rw [hidx, hnew]
          · intro off1 l1 zz1 h
            have ho : off1 = pos0 + ws.length ∧ l1 = 64 := by
              cases h
              exact ⟨rfl, rfl⟩
            obtain ⟨rfl, rfl⟩ := ho
            rw [List.length_append, hWlen]
            refine ⟨by omega, by omega⟩
      | Some off l zz =>
        -- merge: advance the open literal entry by 64
        obtain ⟨hposle, hoffw⟩ := hoff off l zz rfl
        refine ⟨⟨some (.Some off (l + 64) zz), tbl, ws ++ W⟩, ?_, ?_⟩
        · unfold origTileStep
          rw [harea]
          dsimp only
          rw [hbf]
          simp only [Bool.false_eq_true, if_false, hW]
          simp [ActualEntry.advance]
        · unfold OrigInv
          dsimp only
          simp only [entryLen] at hl0 hlle hl2 hrt hre ⊢
          have hl64 : (l + 64) / 2 = l / 2 + 32 := by omega
          refine ⟨by omega, by omega, by omega, by omega, ?_, ?_, ?_⟩
          · have hidx0 : 64 * (t + 1) - (l + 64) = 64 * t - l := by omega
            rw [hidx0, replayTable_mono hrt]
          · rw [replayEntry_some_eq off (l + 64) zz hposle
              (by rw [List.length_append, hWlen, hl64]; omega)]
            rw [replayEntry_some_eq off l zz hposle (by omega)] at hre
            have hdl : (ws.drop (off - pos0)).length = l / 2 := by
              rw [List.length_drop]
              omega
            rw [List.take_of_length_le (le_of_eq hdl)] at hre
            rw [hl64, List.drop_append_of_le_length (by omega)]
            have htk : ((ws.drop (off - pos0)) ++ W).take (l / 2 + 32) =
                ws.drop (off - pos0) ++ W := by
              apply List.take_of_length_le
              rw [List.length_append, hdl, hWlen]
            rw [htk, unpackBytes_append, hWunp]
            have hidx : 64 * (t + 1) - (l + 64) = 64 * t - l := by omega
            rw [hidx]
            have hsplit := segment_split pxs
              (show 64 * t - l ≤ 64 * t by omega)
              (show 64 * t ≤ 64 * (t + 1) by omega)
              (show 64 * (t + 1) ≤ pxs.length by omega)
            rw [hsplit, hnew]
            have hold : (pxs.take (64 * t)).drop (64 * t - l) =
                unpackBytes (ws.drop (off - pos0)) := by
              simpa using hre.symm
            rw [hold]
          · intro off1 l1 zz1 h
            have ho : off1 = off ∧ l1 = l + 64 := by
              cases h
              exact ⟨rfl, rfl⟩
            obtain ⟨rfl, rfl⟩ := ho
            rw [List.length_append, hWlen, hl64]
            omega

theorem origRunN_inv {pxs : List Nat} {pos0 z : Nat} (hpx : pixelOk pxs) :
    ∀ t, t * 64 ≤ pxs.length →
      ∃ st, origRunN pxs z pos0 t = some st ∧ OrigInv pxs pos0 t st := by
  intro t
  induction t with
  | zero =>
    intro h
    refine ⟨⟨none, [], []⟩, rfl, ?_⟩
    unfold OrigInv
    exact ⟨rfl, rfl, rfl⟩
  | succ k ih =>
    intro h
    obtain ⟨st, hrun, hinv⟩ := ih (by omega)
    obtain ⟨st1, hstep, hinv1⟩ := origTileStep_inv hpx (by omega) hinv
    refine ⟨st1, ?_, hinv1⟩
    unfold origRunN
    rw [hrun]
    exact hstep

theorem orig_roundtrip {img : Image} {pxs : List Nat} (pos0 fuel : Nat)
    (hpx : pixelOk pxs) (hdim : pxs.length = img.width * img.height)
    (h8w : 8 ∣ img.width) (h8h : 8 ∣ img.height) (hpos : 0 < pxs.length) :
    ∃ table ws,
      compress .CompressionMethodOriginal img pxs pos0 fuel = .ok table ws ∧
      replayTable pos0 ws table = some pxs := by
  obtain ⟨a, ha⟩ := h8w
  obtain ⟨b, hb⟩ := h8h
  have htiles : img.width / 8 * img.height / 8 = a * b := by
    rw [ha, hb, Nat.mul_div_cancel_left a (by norm_num),
      show a * (8 * b) = 8 * (a * b) by ring,
      Nat.mul_div_cancel_left _ (by norm_num)]
  have hlen64 : pxs.length = a * b * 64 := by
    rw [hdim, ha, hb]
    ring
  have ht0 : 0 < a * b := by
    by_contra hc
    push_neg at hc
    have hz : a * b = 0 := by omega
    rw [hz] at hlen64
    omega
  obtain ⟨st, hrun, hinv⟩ := origRunN_inv hpx (a * b) (by omega)
  unfold compress
  rw [htiles, hrun]
  dsimp only
  cases hact : st.actual with
  | none =>
    unfold OrigInv at hinv
    rw [hact] at hinv
    dsimp only at hinv
    omega
  | some e =>
    unfold OrigInv at hinv
    rw [hact] at hinv
    dsimp only at hinv
    obtain ⟨ht, hl0, hlle, hl2, hrt, hre, hoff⟩ := hinv
    refine ⟨st.table ++ [e.to_assembly], st.written, rfl, ?_⟩
    have hsn := replayTable_snoc hrt hre
    rw [take_prefix_extend pxs (by omega)] at hsn
    rw [hsn, List.take_of_length_le (by omega)]

theorem to_assembly_entryInv0 (e : ActualEntry) : entryInv0 e.to_assembly := by
  cases e with
  | Null l z => exact ⟨rfl, fun _ => rfl⟩
  | Some off l z =>
    refine ⟨rfl, ?_⟩
    intro h
    simp [ActualEntry.to_assembly] at h

theorem origTileStep_table {pxs : List Nat} {z pos0 : Nat} {st st1 : OrigSt}
    {t : Nat} (h : origTileStep pxs z pos0 st t = some st1)
    (hall : ∀ e ∈ st.table, entryInv0 e) : ∀ e ∈ st1.table, entryInv0 e := by
  obtain ⟨act, tbl, ws⟩ := st
  unfold origTileStep at h
  cases harea : readArea pxs (t * 64) 64 with
  | none =>
    rw [harea] at h
    exact absurd h (by simp)
  | some A =>
    rw [harea] at h
    dsimp only at h
    cases hpk : (if (A.all fun x => x == 0) = true then some ([] : List Nat)
        else packPairs A) with
    | none =>
      rw [hpk] at h
      exact absurd h (by simp)
    | some wrote =>
      rw [hpk] at h
      dsimp only at h
      cases act with
      | none =>
        rw [if_pos rfl] at h
        cases h
        intro e he
        dsimp only at he
        rcases List.mem_append.1 he with ho | hn
        · exact hall e ho
        · simp at hn
      | some e2 =>
        cases e2 with
        | Null l zz =>
          by_cases hbb : (!(A.all fun x => x == 0)) = true
          · rw [if_pos hbb] at h
            cases h
            intro e he
            dsimp only at he
            rcases List.mem_append.1 he with ho | hn
            · exact hall e ho
            · have he2 : e = (ActualEntry.Null l zz).to_assembly := by
                simpa using hn
              subst he2
              exact to_assembly_entryInv0 _
          · rw [if_neg hbb] at h
            dsimp only at h
            cases h
            intro e he
            dsimp only at he
            exact hall e he
        | Some off l zz =>
          by_cases hbb : (A.all fun x => x == 0) = true
          · rw [if_pos hbb] at h
            cases h
            intro e he
            dsimp only at he
            rcases List.mem_append.1 he with ho | hn
            · exact hall e ho
            · have he2 : e = (ActualEntry.Some off l zz).to_assembly := by
                simpa using hn
              subst he2
              exact to_assembly_entryInv0 _
          · rw [if_neg hbb] at h
            dsimp only at h
            cases h
            intro e he
            dsimp only at he
            exact hall e he

theorem origRunN_table {pxs : List Nat} {pos0 z : Nat} :
    ∀ t st, origRunN pxs z pos0 t = some st →
      ∀ e ∈ st.table, entryInv0 e := by
  intro t
  induction t with
  | zero =>
    intro st h
    have hst : st = ⟨none, [], []⟩ := by
      simpa [origRunN] using h.symm
    subst hst
    intro e he
    simp at he
  | succ k ih =>
    intro st h
    unfold origRunN at h
    cases hrun : origRunN pxs z pos0 k with
    | none =>
      rw [hrun] at h
      exact absurd h (by simp)
    | some st0 =>
      rw [hrun] at h
      exact origTileStep_table h (ih st0 hrun)

/-! ### Shape of all returned entries, for any strategy -/

theorem compress_entries_shape (m : CompressionMethod) (img : Image)
    (pxs : List Nat) (pos0 fuel : Nat) (table : List TaggedEntry)
    (ws : List Nat) (h : compress m img pxs pos0 fuel = .ok table ws) :
    ∀ e ∈ table, entryInv0 e := by
  cases m with
  | CompressionMethodOriginal =>
    unfold compress at h
    cases h1 : origRunN pxs img.z_index pos0
        (img.width / 8 * img.height / 8) with
    | none =>
      rw [h1] at h
      exact absurd h (by simp)
    | some st =>
      rw [h1] at h
      dsimp only at h
      cases h2 : st.actual with
      | none =>
        rw [h2] at h
        exact absurd h (by simp)
      | some e0 =>
        rw [h2] at h
        have htbl : table = st.table ++ [e0.to_assembly] := by
          cases h
          rfl
        subst htbl
        intro e he
        rcases List.mem_append.1 he with ho | hn
        · exact origRunN_table _ st h1 e ho
        · have he2 : e = e0.to_assembly := by simpa using hn
          subst he2
          exact to_assembly_entryInv0 e0
  | CompressionMethodOptimised mult minT =>
    intro e he
    have hinv := (optLoop_entryInv fuel _ table ws h (by simp)) e he
    exact ⟨hinv.1, fun hf => (hinv.2 hf).1⟩
  | NoCompression =>
    unfold compress at h
    cases h1 : packPairs pxs with
    | none =>
      rw [h1] at h
      exact absurd h (by simp)
    | some bs =>
      rw [h1] at h
      have htbl : table =
          [⟨⟨pos0, bs.length * 2, bs.length, img.z_index⟩, false⟩] := by
        cases h
        rfl
      subst htbl
      intro e he
      have he2 : e = ⟨⟨pos0, bs.length * 2, bs.length, img.z_index⟩, false⟩ := by
        simpa using he
      subst he2
      refine ⟨by dsimp only; omega, ?_⟩
      intro hf
      simp at hf

/-! ### Claim theorems -/

/-- C1 (counterexample): the claim quantifies over every compression strategy,
but the `Optimised` strategy with `multiple_of_value = 0` panics on its first
scan iteration (`pixel_id % multiple_of_value` is a division by zero in Rust),
so `compress` does not succeed even on the even-length in-range buffer
`[1, 1]`. -/
theorem compress_optimised_mult0_fails :
    ¬ succeeds (.CompressionMethodOptimised 0 0) ⟨0, 0, 0⟩ [1, 1] 0 := by
  rintro ⟨fuel, table, ws, h⟩
  cases fuel with
  | zero => simp [compress, optLoop] at h
  | succ f => simp [compress, optLoop, optStep] at h

/-- C1 (amended): for every pixel buffer of even length whose values are all
in `0..15`, compress succeeds and replaying the returned entries in order —
`pixel_count` transparent pixels for a filler entry, `byte_count` bytes read
at `source_offset` and unpacked high-nibble-first for a literal entry —
reproduces the input buffer exactly, for the `NoCompression` strategy; for
`Original` provided the length equals `width * height` with both dimensions
multiples of 8 and the buffer is non-empty; and for `Optimised` provided
`multiple_of_value` is positive and even and `min_transparent_to_compress` is
at least `multiple_of_value`. Fuel `pxs.length + 2` suffices for the scan. -/
theorem compress_replay_roundtrip (m : CompressionMethod) (img : Image)
    (pxs : List Nat) (pos0 : Nat) (hpx : pixelOk pxs)
    (hok : methodOk m img pxs) :
    ∃ table ws, compress m img pxs pos0 (pxs.length + 2) = .ok table ws ∧
      replayTable pos0 ws table = some pxs := by
  cases m with
  | CompressionMethodOriginal =>
    simp only [methodOk] at hok
    obtain ⟨hdim, h8w, h8h, hpos⟩ := hok
    exact orig_roundtrip pos0 _ hpx hdim h8w h8h hpos
  | CompressionMethodOptimised mult minT =>
    simp only [methodOk] at hok
    obtain ⟨heven, hm2, hm0, hmm⟩ := hok
    have hinv0 : OInv pxs pos0 ⟨0, 0, pos0, [], []⟩ := by
      refine ⟨by norm_num, by simp, by simp, by simp, by simp,
        by simp [replayTable], by simp [unpackBytes]⟩
    exact optLoop_roundtrip hm0 hm2 hmm heven hpx (pxs.length + 2) _ hinv0
      (by dsimp only; omega)
  | NoCompression =>
    simp only [methodOk] at hok
    exact none_roundtrip pos0 _ hpx hok

/-- C1 (witness): the round-trip theorem applied at the concrete buffer
`[1, 2]` under the `NoCompression` strategy. -/
theorem compress_replay_roundtrip_witness :
    ∃ table ws,
      compress .NoCompression ⟨0, 0, 0⟩ [1, 2] 0 ([1, 2].length + 2) =
        .ok table ws ∧
      replayTable 0 ws table = some [1, 2] :=
  compress_replay_roundtrip .NoCompression ⟨0, 0, 0⟩ [1, 2] 0
    (by unfold pixelOk; decide) (by unfold methodOk; decide)

/-- C2 (counterexample): with `min_transparent_to_compress = 0` (an allowed
parameter choice) and a non-transparent aligned pixel, the `Optimised` scan
re-triggers an empty transparent run at the same index forever: no amount of
fuel makes `compress` return anything on `[1, 1]`. -/
theorem compress_optimised_min0_diverges :
    ¬ ∃ fuel,
      compress (.CompressionMethodOptimised 2 0) ⟨0, 0, 0⟩ [1, 1] 0 fuel ≠
        .fuelOut := by
  rintro ⟨fuel, h⟩
  exact h (optLoop_stuck fuel ⟨0, 0, 0, [], []⟩ rfl)

/-- C2 (amended): provided `min_transparent_to_compress ≥ multiple_of_value ≥ 1`
for the `Optimised` strategy (no condition for the other two), every call to
`compress` terminates — `pixel_count + 2` loop iterations suffice to reach a
result (a returned assembly table, or a panic on invalid input), and the scan
never revisits the same position forever. -/
theorem compress_terminates (m : CompressionMethod) (img : Image)
    (pxs : List Nat) (pos0 : Nat) (hok : termOk m) :
    compress m img pxs pos0 (pxs.length + 2) ≠ .fuelOut := by
  cases m with
  | CompressionMethodOriginal =>
    unfold compress
    cases h1 : origRunN pxs img.z_index pos0
        (img.width / 8 * img.height / 8) with
    | none => simp
    | some st =>
      dsimp only
      cases h2 : st.actual with
      | none => simp
      | some e => simp
  | CompressionMethodOptimised mult minT =>
    simp only [termOk] at hok
    exact optLoop_no_fuelOut hok.1 hok.2 _ _ (by dsimp only; omega)
  | NoCompression =>
    unfold compress
    cases h1 : packPairs pxs with
    | none => simp
    | some bs => simp

/-- C2 (witness): termination at a concrete `Optimised` call. -/
theorem compress_terminates_witness :
    compress (.CompressionMethodOptimised 2 2) ⟨0, 0, 0⟩ [0, 0] 0
      ([0, 0].length + 2) ≠ .fuelOut :=
  compress_terminates (.CompressionMethodOptimised 2 2) ⟨0, 0, 0⟩ [0, 0] 0
    (by exact ⟨by norm_num, by norm_num⟩)

/-- C3 (counterexample): the `ImageAssemblyEntry` record returned by
`compress` carries no tag distinguishing filler from literal entries: a
literal entry written at sink offset 0 (`NoCompression` on `[1, 1]` with the
sink at position 0) and a filler entry (`Optimised` on the all-transparent
`[0, 0]`) produce identical records `{pixel_src := 0, pixel_amount := 2,
byte_amount := 1}`, so no function of the record recovers which entries were
fillers. -/
theorem filler_literal_indistinguishable :
    ¬ ∃ f : ImageAssemblyEntry → Bool,
      ∀ (m : CompressionMethod) (img : Image) (pxs : List Nat)
        (pos0 fuel : Nat) (table : List TaggedEntry) (ws : List Nat),
        compress m img pxs pos0 fuel = .ok table ws →
        ∀ e ∈ table, f e.entry = e.isFiller := by
  rintro ⟨f, hf⟩
  have h1 := hf .NoCompression ⟨0, 0, 0⟩ [1, 1] 0 1
    [⟨⟨0, 2, 1, 0⟩, false⟩] [17] (by decide) ⟨⟨0, 2, 1, 0⟩, false⟩ (by simp)
  have h2 := hf (.CompressionMethodOptimised 2 1) ⟨0, 0, 0⟩ [0, 0] 0 5
    [⟨⟨0, 2, 1, 0⟩, true⟩] [] (by decide) ⟨⟨0, 2, 1, 0⟩, true⟩ (by simp)
  rw [h1] at h2
  exact absurd h2 (by simp)

/-- C3 (amended): filler entries carry no explicit tag in the returned
record; they are exactly the entries emitted with `pixel_src = 0`, an offset
value that a literal entry starting at the beginning of the sink can also
carry legitimately. -/
theorem filler_entries_marked_by_zero_src (m : CompressionMethod)
    (img : Image) (pxs : List Nat) (pos0 fuel : Nat)
    (table : List TaggedEntry) (ws : List Nat)
    (h : compress m img pxs pos0 fuel = .ok table ws) :
    ∀ e ∈ table, e.isFiller = true → e.entry.pixel_src = 0 :=
  fun e he hf => (compress_entries_shape m img pxs pos0 fuel table ws h e he).2 hf

/-- C3 (witness): the zero-offset marking at a concrete filler entry. -/
theorem filler_entries_marked_by_zero_src_witness :
    (⟨⟨0, 2, 1, 0⟩, true⟩ : TaggedEntry).entry.pixel_src = 0 :=
  filler_entries_marked_by_zero_src (.CompressionMethodOptimised 2 1)
    ⟨0, 0, 0⟩ [0, 0] 0 5 [⟨⟨0, 2, 1, 0⟩, true⟩] [] (by decide)
    ⟨⟨0, 2, 1, 0⟩, true⟩ (by simp) rfl

/-- C4: every assembly entry produced by `compress`, under every strategy and
on every input on which it succeeds, satisfies
`byte_amount = pixel_amount / 2` (integer division). -/
theorem byte_amount_half_pixel_amount (m : CompressionMethod) (img : Image)
    (pxs : List Nat) (pos0 fuel : Nat) (table : List TaggedEntry)
    (ws : List Nat) (h : compress m img pxs pos0 fuel = .ok table ws) :
    ∀ e ∈ table, e.entry.byte_amount = e.entry.pixel_amount / 2 :=
  fun e he => (compress_entries_shape m img pxs pos0 fuel table ws h e he).1

/-- C4 (witness): the invariant at a concrete entry. -/
theorem byte_amount_half_pixel_amount_witness :
    (⟨⟨0, 2, 1, 0⟩, false⟩ : TaggedEntry).entry.byte_amount =
      (⟨⟨0, 2, 1, 0⟩, false⟩ : TaggedEntry).entry.pixel_amount / 2 :=
  byte_amount_half_pixel_amount .NoCompression ⟨0, 0, 0⟩ [1, 1] 0 1
    [⟨⟨0, 2, 1, 0⟩, false⟩] [17] (by decide) ⟨⟨0, 2, 1, 0⟩, false⟩ (by simp)

/-- C5 (counterexample): `compress` performs no length validation: on the
non-pair-aligned input `[1]` the `NoCompression` strategy returns `Ok` with
an empty entry instead of reporting an encode error. -/
theorem compress_odd_length_no_error :
    compress .NoCompression ⟨0, 0, 0⟩ [1] 0 1 =
      .ok [⟨⟨0, 0, 0, 0⟩, false⟩] [] := by
  decide

/-- C5 (amended): `compress` never reports a malformed-input error. On a
buffer whose length is not pair-aligned, the `NoCompression` strategy
succeeds, silently ignoring the trailing pixel and encoding only
`2 * (length / 2)` pixels (the `Original` and `Optimised` strategies panic
on out-of-range indexing rather than returning an error). -/
theorem noCompression_accepts_odd_length (img : Image) (pxs : List Nat)
    (pos0 fuel : Nat) (hpx : pixelOk pxs) (hodd : ¬ 2 ∣ pxs.length) :
    ∃ ws, compress .NoCompression img pxs pos0 fuel =
        .ok [⟨⟨pos0, pxs.length / 2 * 2, pxs.length / 2, img.z_index⟩,
              false⟩] ws ∧
      ws.length = pxs.length / 2 := by
  obtain ⟨bs, hbs, hlen, hc⟩ := compress_none_eq pos0 fuel hpx
  refine ⟨bs, ?_, hlen⟩
  rw [hc, hlen]

/-- C5 (witness): the amended behavior at the odd-length buffer `[1]`. -/
theorem noCompression_accepts_odd_length_witness :
    ∃ ws, compress .NoCompression ⟨0, 0, 0⟩ [1] 0 1 =
        .ok [⟨⟨0, [1].length / 2 * 2, [1].length / 2, 0⟩, false⟩] ws ∧
      ws.length = [1].length / 2 :=
  noCompression_accepts_odd_length ⟨0, 0, 0⟩ [1] 0 1
    (by unfold pixelOk; decide) (by decide)

/-- C6: under the `Optimised` strategy, every filler (transparent-run) entry
in a returned assembly table has a `pixel_amount` that is a multiple of
`multiple_of_value`. -/
theorem optimised_filler_multiple (mult minT : Nat) (img : Image)
    (pxs : List Nat) (pos0 fuel : Nat) (table : List TaggedEntry)
    (ws : List Nat)
    (h : compress (.CompressionMethodOptimised mult minT) img pxs pos0 fuel =
      .ok table ws) :
    ∀ e ∈ table, e.isFiller = true → e.entry.pixel_amount % mult = 0 :=
  fun e he hf => ((optLoop_entryInv fuel _ table ws h (by simp)) e he).2 hf |>.2

/-- C6 (witness): the divisibility at a concrete filler entry of a concrete
`Optimised` run. -/
theorem optimised_filler_multiple_witness :
    (⟨⟨0, 6, 3, 0⟩, true⟩ : TaggedEntry).entry.pixel_amount % 2 = 0 :=
  optimised_filler_multiple 2 2 ⟨0, 0, 0⟩ [0, 0, 0, 0, 0, 0, 1, 1] 0 12
    [⟨⟨0, 6, 3, 0⟩, true⟩, ⟨⟨0, 2, 1, 0⟩, false⟩] [17] (by decide)
    ⟨⟨0, 6, 3, 0⟩, true⟩ (by simp) rfl

/-- C7 (counterexample): the claim includes the case where the
`min_transparent_to_compress` transparent pixels extend exactly to the end of
the buffer, but the code's trigger requires
`pixel_id + min_transparent_to_compress < pixel_list.len()` strictly: on the
all-transparent buffer `[0, 0]` with `multiple_of_value =
min_transparent_to_compress = 2` no transparent run is opened and the two
pixels are emitted as a literal entry (one written byte) instead of a
filler. -/
theorem optimised_no_run_at_buffer_end :
    compress (.CompressionMethodOptimised 2 2) ⟨0, 0, 0⟩ [0, 0] 0 5 =
      .ok [⟨⟨0, 2, 1, 0⟩, false⟩] [0] := by
  decide

/-- C7 (amended): whenever the current scan index is a multiple of
`multiple_of_value` and the next `min_transparent_to_compress` pixels are all
transparent and end strictly before the end of the buffer, the `Optimised`
scan step flushes any open literal entry and pushes a transparent run
starting at that index, extended greedily through the transparent pixels and
backed off to the previous multiple of `multiple_of_value`. -/
theorem optimised_trigger_spec (mult minT : Nat) (pxs : List Nat)
    (pos0 z : Nat) (s : OptState) (h2 : s.pixel_id % 2 = 0) (hm : mult ≠ 0)
    (hal : s.pixel_id % mult = 0) (hsp : s.pixel_id + minT < pxs.length)
    (hat : ∀ l < minT, pxs.getD (s.pixel_id + l) 1 = 0) :
    optStep mult minT pxs pos0 z s =
      .cont ⟨s.pixel_id + countZeros (pxs.drop s.pixel_id) -
               (s.pixel_id + countZeros (pxs.drop s.pixel_id)) % mult,
             0,
             (if 0 < s.number_of_byte_to_include then pos0 + s.written.length
              else s.byte_include_start),
             (if 0 < s.number_of_byte_to_include then
                s.table ++ [⟨⟨s.byte_include_start,
                              s.number_of_byte_to_include * 2,
                              s.number_of_byte_to_include, z⟩, false⟩]
              else s.table) ++
               [⟨⟨0, countZeros (pxs.drop s.pixel_id) -
                     (s.pixel_id + countZeros (pxs.drop s.pixel_id)) % mult,
                   (countZeros (pxs.drop s.pixel_id) -
                     (s.pixel_id + countZeros (pxs.drop s.pixel_id)) % mult) / 2,
                   z⟩, true⟩],
             s.written⟩ :=
  optStep_trigger h2 hm ⟨hal, hsp, (allTransp_iff pxs s.pixel_id minT).2 hat⟩

/-- C7 (witness): the trigger at a concrete state — index 0 of
`[0, 0, 0, 1]`, greedy run of 3 transparent pixels backed off to 2. -/
theorem optimised_trigger_spec_witness :
    optStep 2 2 [0, 0, 0, 1] 0 0 ⟨0, 0, 0, [], []⟩ =
      .cont ⟨2, 0, 0, [⟨⟨0, 2, 1, 0⟩, true⟩], []⟩ := by
  have h := optimised_trigger_spec 2 2 [0, 0, 0, 1] 0 0 ⟨0, 0, 0, [], []⟩
    (by decide) (by decide) (by decide) (by decide) (by decide)
  simpa using h

/-- C8: compressing a 64-pixel all-transparent buffer with the `Original`
strategy on an 8×8 image returns exactly one filler entry with
`pixel_count = 64` and `byte_count = 32` and writes zero bytes to the sink. -/
theorem original_all_transparent_example :
    compress .CompressionMethodOriginal ⟨8, 8, 0⟩ (List.replicate 64 0) 0 0 =
      .ok [⟨⟨0, 64, 32, 0⟩, true⟩] [] := by
  decide

/-- C9: compressing a 64-pixel buffer with every value in `1..15` under the
`NoCompression` strategy returns one literal entry with `pixel_count = 64`,
`byte_count = 32` and `source_offset` equal to the sink position at the start
of the call, and writes exactly 32 bytes, the `i`-th being
`16 * pixel[2i] + pixel[2i+1]`. -/
theorem noCompression_example (img : Image) (pxs : List Nat)
    (pos0 fuel : Nat) (hlen : pxs.length = 64)
    (hv : ∀ p ∈ pxs, 1 ≤ p ∧ p ≤ 15) :
    ∃ ws, compress .NoCompression img pxs pos0 fuel =
        .ok [⟨⟨pos0, 64, 32, img.z_index⟩, false⟩] ws ∧
      ws.length = 32 ∧
      ∀ i < 32, ws[i]? =
        some (16 * pxs.getD (2 * i) 0 + pxs.getD (2 * i + 1) 0) := by
  have hpx : ∀ p ∈ pxs, p < 16 := fun p hp => by
    have := hv p hp
    omega
  obtain ⟨bs, hbs, hblen, hunp, hidx⟩ := packPairs_sound pxs hpx
  refine ⟨bs, ?_, ?_, ?_⟩
  · unfold compress
    dsimp only
    rw [hbs]
    dsimp only
    rw [hblen, hlen]
  · rw [hblen, hlen]
  · intro i hi
    exact hidx i (by omega)

/-- C9 (witness): the literal example at the concrete all-ones buffer. -/
theorem noCompression_example_witness :
    ∃ ws, compress .NoCompression ⟨0, 0, 0⟩ (List.replicate 64 1) 0 1 =
        .ok [⟨⟨0, 64, 32, 0⟩, false⟩] ws ∧
      ws.length = 32 ∧
      ∀ i < 32, ws[i]? =
        some (16 * (List.replicate 64 1).getD (2 * i) 0 +
              (List.replicate 64 1).getD (2 * i + 1) 0) :=
  noCompression_example ⟨0, 0, 0⟩ (List.replicate 64 1) 0 1 (by decide)
    (by decide)

/-- C10: for every 16-bit value `byte` and every index `id`, `get_bit_u16`
returns `none` exactly when `id ≥ 16`, and otherwise `some b` where `b` holds
exactly when the bit of `byte` at position `id` counted from the most
significant bit is set. -/
theorem get_bit_u16_spec (byte id : Nat) (hb : byte < 65536) :
    get_bit_u16 byte id =
      if id < 16 then some (Nat.testBit byte (15 - id)) else none := by
  unfold get_bit_u16
  by_cases hid : id < 16
  · rw [if_pos hid, if_pos hid]
    have h := get_bit_aux byte (15 - id)
    cases htb : Nat.testBit byte (15 - id) with
    | false =>
      have hx : ¬ 1 ≤ byte >>> (15 - id) <<< 15 % 65536 := by
        intro hx
        rw [h.1 hx] at htb
        exact absurd htb (by simp)
      simp [hx]
    | true =>
      have hx : 1 ≤ byte >>> (15 - id) <<< 15 % 65536 := h.2 htb
      simp [hx]
  · rw [if_neg hid, if_neg hid]

/-- C10 (witness): the bit extraction at a concrete value and index. -/
theorem get_bit_u16_spec_witness :
    get_bit_u16 40000 3 =
      if 3 < 16 then some (Nat.testBit 40000 (15 - 3)) else none :=
  get_bit_u16_spec 40000 3 (by decide)

end PmdWan
